import Mathlib

/-!
Verification development for the DiveSMS i18n metadata and translation
pipeline scripts. The Python sources are shallowly embedded: Python dicts
become association lists over `String` keys (insertion-ordered, as in
CPython), file stores become explicit state values, exceptions become
`Option`/`Except` results, and logging side effects become explicit
result components. Each definition mirrors one function of
`_scripts/i18n/metadata_io.py`, `_scripts/i18n/translate_with_context.py`,
`_scripts/i18n/manage_string_metadata.py` or
`_scripts/i18n/cleanup_orphaned_metadata.py`.
-/

namespace DiveSMS

/-- Left-biased choice on options, used to state lookup lemmas. -/
def optOr {α : Type} (a b : Option α) : Option α :=
  match a with
  | some v => some v
  | none => b

/-- A Python dict with string keys, modelled as an insertion-ordered
association list. CPython dicts preserve insertion order; writing an
existing key updates it in place, writing a fresh key appends it. -/
abbrev Dict (α : Type) : Type := List (String × α)

/-- Dict lookup: value of the first entry carrying the key. -/
def alookup {α : Type} : Dict α → String → Option α
  | [], _ => none
  | kv :: rest, k => if kv.1 = k then some kv.2 else alookup rest k

/-- Key list of a dict, in entry order. -/
def dkeys {α : Type} (m : Dict α) : List String :=
  m.map Prod.fst

/-- Python dict item assignment: update the first entry with this key in
place, or append a fresh entry at the end. -/
def dictInsert {α : Type} : Dict α → String → α → Dict α
  | [], k, v => [(k, v)]
  | kv :: rest, k, v => if kv.1 = k then (k, v) :: rest else kv :: dictInsert rest k v

/-- Python dict.update and double-splat merging: entries of the second
dict written into the first, one after another in order. -/
def dictUpdate {α : Type} (m u : Dict α) : Dict α :=
  u.foldl (fun acc kv => dictInsert acc kv.1 kv.2) m

/-- Python del on a dict key. -/
def dictErase {α : Type} (m : Dict α) (k : String) : Dict α :=
  m.filter (fun kv => kv.1 ≠ k)

/-- Traverse a dict by an effectful (may-fail) function of key and value,
keeping the keys; models a Python loop that may raise at some entry. -/
def mapValsM {α β : Type} (g : String → α → Option β) : Dict α → Option (Dict β)
  | [] => some []
  | kv :: rest =>
    match g kv.1 kv.2, mapValsM g rest with
    | some w, some res => some ((kv.1, w) :: res)
    | _, _ => none

/-- Code-point comparison of characters, as used by Python string order. -/
def lexLe : List Char → List Char → Bool
  | [], _ => true
  | _ :: _, [] => false
  | a :: as, b :: bs =>
    if a.toNat < b.toNat then true
    else if b.toNat < a.toNat then false
    else lexLe as bs

/-- Python string comparison: lexicographic on code points. -/
def strLe (a b : String) : Bool :=
  lexLe a.data b.data

/-- One insertion step of insertion sort. -/
def insOne (x : String) : List String → List String
  | [] => [x]
  | y :: ys => if strLe x y then x :: y :: ys else y :: insOne x ys

/-- Python sorted() on a list of strings (ascending, code-point order). -/
def insSort : List String → List String
  | [] => []
  | x :: xs => insOne x (insSort xs)

/-- A top-level field value of a metadata record: either a scalar or a
nested field group. merge_with_defaults only inspects this one level
(isinstance(default_value, dict)); deeper values stay opaque, so group
fields carry opaque scalar payloads. -/
inductive FVal : Type where
  | prim : String → FVal
  | obj : Dict String → FVal
deriving DecidableEq

/-- A stored (partial) metadata record: top-level field name to value. -/
abbrev PRec : Type := Dict FVal

/-- One defaults entry of MetadataIO._merge_with_defaults: a dict-valued
default is double-splat merged with the record's same-named group (a
scalar there raises TypeError, modelled as none); a scalar default is
replaced by the record's value when present. -/
def mergeEntry (metadata : PRec) (k : String) (dv : FVal) : Option FVal :=
  match dv with
  | FVal.obj dl =>
    match alookup metadata k with
    | none => some (FVal.obj dl)
    | some (FVal.obj ml) => some (FVal.obj (dictUpdate dl ml))
    | some (FVal.prim _) => none
  | FVal.prim sc => some ((alookup metadata k).getD (FVal.prim sc))

/-- MetadataIO._merge_with_defaults. Walks the defaults dict applying
mergeEntry; record fields absent from defaults are appended afterwards in
record order. -/
def merge_with_defaults (defaults metadata : PRec) : Option PRec :=
  match mapValsM (mergeEntry metadata) defaults with
  | none => none
  | some base => some (base ++ metadata.filter (fun kv => (alookup defaults kv.1).isNone))

/-- A loaded repository snapshot for MetadataIO: the index's categories
mapping, the category shard files that exist on disk (category name to
parsed YAML content), and the loaded defaults object. -/
structure Repo : Type where
  indexCats : Dict (List String)
  shards : Dict (Dict PRec)
  defaults : PRec
deriving DecidableEq

/-- The category scan of MetadataIO.get_string_metadata: first category of
the index whose key list contains the string key. -/
def findCategory : Dict (List String) → String → Option String
  | [], _ => none
  | ckv :: rest, k => if k ∈ ckv.2 then some ckv.1 else findCategory rest k

/-- MetadataIO.get_string_metadata: locate the category via the index,
load that category's shard (a missing file raises, modelled as error),
fetch the partial record and merge it with defaults (a TypeError in the
merge is also an error). -/
def get_string_metadata (r : Repo) (key : String) : Except Unit (Option PRec) :=
  match findCategory r.indexCats key with
  | none => Except.ok none
  | some cat =>
    match alookup r.shards cat with
    | none => Except.error ()
    | some shard =>
      match alookup shard key with
      | none => Except.ok none
      | some meta =>
        match merge_with_defaults r.defaults meta with
        | none => Except.error ()
        | some m => Except.ok (some m)

/-- MetadataIO.get_category_metadata: merge every record of one shard with
the defaults. -/
def get_category_metadata (r : Repo) (cat : String) : Except Unit (Dict PRec) :=
  match alookup r.shards cat with
  | none => Except.error ()
  | some shard =>
    match mapValsM (fun _ m => merge_with_defaults r.defaults m) shard with
    | none => Except.error ()
    | some res => Except.ok res

/-- The category loop of MetadataIO.get_all_metadata, accumulating with
dict.update over the categories of the index in order. -/
def get_all_go (r : Repo) : List String → Dict PRec → Except Unit (Dict PRec)
  | [], acc => Except.ok acc
  | c :: rest, acc =>
    match get_category_metadata r c with
    | Except.error e => Except.error e
    | Except.ok cm => get_all_go r rest (dictUpdate acc cm)

/-- MetadataIO.get_all_metadata. -/
def get_all_metadata (r : Repo) : Except Unit (Dict PRec) :=
  get_all_go r (dkeys r.indexCats) []

/-- get_all_metadata together with the list of warning messages it logs.
The source performs no logging call anywhere in get_all_metadata or
get_category_metadata, so the logged list is always empty. -/
def get_all_metadata_logged (r : Repo) : Except Unit (Dict PRec) × List String :=
  (get_all_metadata r, [])

/-- The merged record one category contributes for a key: shard loaded,
record present, defaults merge succeeded. -/
def catLookup (r : Repo) (c : String) (k : String) : Option PRec :=
  match alookup r.shards c with
  | none => none
  | some shard =>
    match alookup shard k with
    | none => none
    | some m => merge_with_defaults r.defaults m

/-- The record for a key produced by the latest category of a list that
contributes one; describes which entry survives get_all_metadata's
repeated dict.update. -/
def lastLookup (r : Repo) (cats : List String) (k : String) : Option PRec :=
  match cats with
  | [] => none
  | c :: rest => optOr (lastLookup r rest k) (catLookup r c k)

/-- The defaults side of a MetadataIO instance: whether defaults.json
exists, the defaults object it holds, and the instance's cache field. -/
structure IOCache : Type where
  defaultsFileExists : Bool
  defaultsFileData : PRec
  defaultsCache : Option PRec
deriving DecidableEq

/-- MetadataIO._load_defaults: answer from the cache when filled,
otherwise read the file (empty when the file does not exist) and fill
the cache. -/
def load_defaults (s : IOCache) : PRec × IOCache :=
  match s.defaultsCache with
  | some d => (d, s)
  | none =>
    let d := if s.defaultsFileExists then s.defaultsFileData else []
    (d, { s with defaultsCache := some d })

/-- MetadataIO._merge_with_defaults as the instance method: loads (and
caches) the defaults, then merges. -/
def merge_with_defaults_st (s : IOCache) (metadata : PRec) : Option PRec × IOCache :=
  let p := load_defaults s
  (merge_with_defaults p.1 metadata, p.2)

/-- One str.replace pass with a single-character needle, as each of the
three replace calls of escape_android_string performs. -/
def replaceChar (target : Char) (repl : List Char) : List Char → List Char
  | [] => []
  | c :: rest => (if c = target then repl else [c]) ++ replaceChar target repl rest

/-- escape_android_string: backslashes doubled first, then apostrophes and
double quotes prefixed with a backslash, then a leading at-sign or
question mark prefixed with a backslash; the empty string is returned
unchanged. -/
def escape_android_string (text : String) : String :=
  if text = "" then text
  else
    let t1 := replaceChar '\\' ['\\', '\\'] text.data
    let t2 := replaceChar '\'' ['\\', '\''] t1
    let t3 := replaceChar '\"' ['\\', '\"'] t2
    let t4 :=
      match t3 with
      | '@' :: _ => '\\' :: t3
      | '?' :: _ => '\\' :: t3
      | _ => t3
    String.mk t4

/-- LOCALE_MAPPING of translate_with_context.py: API locale code to
Android values-folder locale code. -/
def LOCALE_MAPPING : Dict String :=
  [("en", "en"), ("zh-CN", "zh-rCN"), ("zh-TW", "zh-rTW"), ("pt-BR", "pt-rBR"),
   ("hi", "hi"), ("es", "es"), ("ar", "ar"), ("id", "id"), ("bn", "bn"),
   ("ru", "ru"), ("ja", "ja"), ("de", "de"), ("fr", "fr"), ("ko", "ko"),
   ("tr", "tr"), ("vi", "vi"), ("it", "it"), ("th", "th"), ("pl", "pl"),
   ("uk", "uk")]

/-- Python dict.get(key, key): mapping lookup falling back to the key. -/
def lookupDflt (m : Dict String) (k : String) : String :=
  (alookup m k).getD k

/-- The per-locale output merge of save_translations: the existing
persisted mapping updated key-by-key with the newly translated values,
each new value passed through escape_android_string exactly once before
the merge; existing values are merged as loaded, unescaped. -/
def mergeLocaleFile (existing newT : Dict String) : Dict String :=
  dictUpdate existing (newT.map (fun kv => (kv.1, escape_android_string kv.2)))

/-- The regrouping loop of save_translations: session results keyed by
string key and API locale, regrouped into Android locale to (key to
translation). -/
def by_locale (allT : Dict (Dict String)) : Dict (Dict String) :=
  allT.foldl (fun acc kv =>
    kv.2.foldl (fun acc2 lt =>
      let aloc := lookupDflt LOCALE_MAPPING lt.1
      dictInsert acc2 aloc (dictInsert ((alookup acc2 aloc).getD []) kv.1 lt.2)) acc) []

/-- save_translations acting on the per-locale output stores (Android
locale to persisted key-to-text mapping): returns immediately when the
session produced nothing, otherwise rewrites each touched locale file
with the merge of its previous content and the escaped new values. -/
def save_translations (stores allT : Dict (Dict String)) : Dict (Dict String) :=
  if allT.isEmpty then stores
  else
    (by_locale allT).foldl (fun st lkv =>
      dictInsert st lkv.1 (mergeLocaleFile ((alookup st lkv.1).getD []) lkv.2)) stores

/-- Word character for the custom-placeholder regex (backslash-w of
re.search applied to percent-delimited names). -/
def isWordChar (c : Char) : Bool :=
  c.isAlphanum || c = '_'

/-- re.search of a percent sign, one or more word characters, then a
percent sign (the custom %name%-placeholder test of save_translations). -/
def hasCustom : List Char → Bool
  | [] => false
  | c :: rest =>
    (c = '%' && !(rest.takeWhile isWordChar).isEmpty &&
      (match rest.drop (rest.takeWhile isWordChar).length with
       | c2 :: _ => c2 = '%'
       | [] => false))
    || hasCustom rest

/-- Conversion characters of the simple format-specifier regex of
save_translations (a percent sign directly followed by one of these). -/
def isSpecChar (c : Char) : Bool :=
  c = 's' || c = 'd' || c = 'i' || c = 'f' || c = 'g' || c = 'e' || c = 'o' ||
  c = 'x' || c = 'X'

/-- re.findall count of the simple format-specifier pattern: a percent
sign directly followed by a conversion character, scanned left to right
without overlap. Positional forms (percent, digits, dollar, letter) do
not match this pattern. -/
def countSpecs : List Char → Nat
  | [] => 0
  | [_] => 0
  | c :: c2 :: rest =>
    if c = '%' then
      if isSpecChar c2 then 1 + countSpecs rest else countSpecs (c2 :: rest)
    else countSpecs (c2 :: rest)

/-- Whether the pattern list occurs at the head of the subject list. -/
def startsSub : List Char → List Char → Bool
  | [], _ => true
  | _ :: _, [] => false
  | a :: as, b :: bs => a = b && startsSub as bs

/-- Whether the pattern list occurs contiguously anywhere in the subject
list (plain substring containment, used to state counterexamples). -/
def containsSub (sub : List Char) : List Char → Bool
  | [] => startsSub sub []
  | c :: rest => startsSub sub (c :: rest) || containsSub sub rest

/-- One string element as written by save_translations: resource name,
text content, and whether the element carries the attribute
formatted equal to false. -/
structure XmlEntry : Type where
  name : String
  text : String
  formattedFalse : Bool
deriving DecidableEq

/-- The documented technical.format_specifiers flag per string key, as
read by save_translations from self.metadata (key in metadata, then
metadata get technical, then get format_specifiers, truthiness). -/
def formatSpecFlag (metaFS : Dict Bool) (k : String) : Bool :=
  (alookup metaFS k).getD false

/-- Whether the written element carries formatted equal to false: set when
the metadata flags format specifiers, and otherwise auto-detected from a
custom percent-delimited placeholder or at least two simple format
specifiers in the value. -/
def xmlFormattedFalse (metaFS : Dict Bool) (k : String) (v : String) : Bool :=
  formatSpecFlag metaFS k || hasCustom v.data || decide (countSpecs v.data ≥ 2)

/-- The element list save_translations builds for one locale file from the
merged mapping: one element per key in sorted key order. -/
def buildEntries (metaFS : Dict Bool) (existing : Dict String) : List XmlEntry :=
  (insSort (dkeys existing)).map (fun k =>
    let v := (alookup existing k).getD ""
    ⟨k, v, xmlFormattedFalse metaFS k v⟩)

/-- The inputs of one MultiLanguageTranslator session: the documented
string keys (self.metadata keys in order), the source strings parsed from
the default values file, and the target API locales. -/
structure Session : Type where
  metadataKeys : List String
  strings : Dict String
  targets : List String

/-- Outcome of the external per-key translation call: a returned mapping
of locale to text, or a raised error (network, JSON decode, prompt
build), which the source catches and turns into an empty result. -/
inductive StepResult : Type where
  | ok : Dict String → StepResult
  | err : StepResult
deriving DecidableEq

/-- Whether one target locale's persisted output store holds a non-empty
translated value for the key, as collected by load_existing_translations
(file of the mapped Android locale parsed, entry present, text
non-empty). -/
def hasNonemptyEntry (stores : Dict (Dict String)) (apiLocale : String) (k : String) : Bool :=
  match alookup stores (lookupDflt LOCALE_MAPPING apiLocale) with
  | none => false
  | some st =>
    match alookup st k with
    | none => false
    | some t => t ≠ ""

/-- The completeness test of load_existing_translations: the key was seen
in some target locale's store (so it is in translations_by_string) and
the locales present cover every target locale. -/
def isComplete (stores : Dict (Dict String)) (targets : List String) (k : String) : Bool :=
  targets.any (fun loc => hasNonemptyEntry stores loc k) &&
  targets.all (fun loc => hasNonemptyEntry stores loc k)

/-- The resume filter of translate_all without force: documented keys not
already complete. -/
def keysToTranslate (s : Session) (stores : Dict (Dict String)) : List String :=
  s.metadataKeys.filter (fun k => !(isComplete stores s.targets k))

/-- translate_string without dry-run: skip when the key has no metadata,
skip when the source text is missing or empty, otherwise call the
service; a raised error or empty response yields an empty result. -/
def translate_string (s : Session) (service : String → StepResult) (k : String) : Dict String :=
  if k ∈ s.metadataKeys then
    match alookup s.strings k with
    | none => []
    | some t =>
      if t = "" then []
      else
        match service k with
        | StepResult.ok tr => tr
        | StepResult.err => []
  else []

/-- The per-key loop of translate_all: each key's result collected when
non-empty, the key recorded in the failure list otherwise; a failure
never aborts the loop. Returns the collected translations and the failed
keys, both in iteration order. -/
def translateLoop (s : Session) (service : String → StepResult) :
    List String → Dict (Dict String) × List String
  | [] => ([], [])
  | k :: rest =>
    let tr := translate_string s service k
    let p := translateLoop s service rest
    if tr.isEmpty then (p.1, k :: p.2) else ((k, tr) :: p.1, p.2)

/-- translate_all in a plain session (no specific key, no force, no
dry-run): resume scan, loop over the non-complete keys, and the aggregate
report (collected translations, failed keys, skipped keys). -/
def translate_all (s : Session) (service : String → StepResult)
    (stores : Dict (Dict String)) : Dict (Dict String) × List String × List String :=
  let p := translateLoop s service (keysToTranslate s stores)
  (p.1, p.2, s.metadataKeys.filter (fun k => isComplete stores s.targets k))

/-- The keys for which such a session reaches the external translation
call: non-complete documented keys whose source text exists and is
non-empty (the skip branches of translate_string dispatch nothing). -/
def sessionDispatches (s : Session) (stores : Dict (Dict String)) : List String :=
  (keysToTranslate s stores).filter (fun k =>
    match alookup s.strings k with
    | none => false
    | some t => t ≠ "")

/-- One full session against the output stores: translate_all followed by
save_translations of whatever it collected. -/
def sessionRun (s : Session) (service : String → StepResult)
    (stores : Dict (Dict String)) : Dict (Dict String) :=
  save_translations stores (translate_all s service stores).1

/-- A small session exercising the failure paths: key a has empty source
text, key b has no source text, key c translates. -/
def sC9 : Session :=
  ⟨["a", "b", "c"], [("a", ""), ("c", "Hello")], ["en"]⟩

/-- A service answering only for key c and raising for everything else. -/
def srvC9 : String → StepResult :=
  fun k => if k = "c" then StepResult.ok [("en", "Bonjour")] else StepResult.err

/-- One working-set record of MetadataManager: its category field and the
rest of its to_dict rendering. -/
structure SRec : Type where
  category : String
  fields : PRec
deriving DecidableEq

/-- The on-disk state MetadataManager.save manipulates: the category YAML
files that exist and the categories mapping of index.json. -/
structure MgrState : Type where
  files : Dict (Dict SRec)
  indexCats : Dict (List String)
deriving DecidableEq

/-- The grouping key of MetadataManager.save: meta.category or
uncategorized when falsy. -/
def effCategory (c : String) : String :=
  if c = "" then "uncategorized" else c

/-- First-occurrence deduplication, tracking the names already seen. -/
def firstOccurAux (seen : List String) : List String → List String
  | [] => []
  | c :: rest =>
    if c ∈ seen then firstOccurAux seen rest
    else c :: firstOccurAux (c :: seen) rest

/-- Category names in first-appearance order, as produced by filling a
defaultdict while iterating the working set. -/
def firstOccur (l : List String) : List String :=
  firstOccurAux [] l

/-- The categories of a working set, in first-appearance order. -/
def catsOf (w : Dict SRec) : List String :=
  firstOccur (w.map (fun kv => effCategory kv.2.category))

/-- The entries of one category's group in the working set, in working-set
order. -/
def groupOf (w : Dict SRec) (c : String) : Dict SRec :=
  w.filter (fun kv => effCategory kv.2.category = c)

/-- MetadataManager.save in split format: write one shard file per
category of the working set (a complete rewrite of that file), then
replace the index categories with the grouped key sets sorted per
category. Shard files of categories no longer present in the working set
are not touched. -/
def mgrSave (st : MgrState) (w : Dict SRec) : MgrState :=
  let cats := catsOf w
  { files := cats.foldl (fun fs c => dictInsert fs c (groupOf w c)) st.files,
    indexCats := cats.map (fun c => (c, insSort (dkeys (groupOf w c)))) }

/-- On-disk state before a category move: key k lives in category a's
shard and the index lists it under a. -/
def stC6 : MgrState :=
  ⟨[("a", [("k", ⟨"a", []⟩)])], [("a", ["k"])]⟩

/-- Working set after editing the record of k: its category field now
says b, and no other record keeps category a alive. -/
def wC6 : Dict SRec :=
  [("k", ⟨"b", []⟩)]

/-- The on-disk state cleanup_orphaned_metadata manipulates: category
shard files and the categories mapping of index.json. -/
structure CleanupFS : Type where
  shards : Dict (Dict PRec)
  indexCats : Dict (List String)
deriving DecidableEq

/-- find_orphaned_metadata: for every category of the index, the listed
keys with no corresponding entry in the source strings file; categories
with no orphans are omitted. -/
def find_orphaned_metadata (indexCats : Dict (List String)) (xmlKeys : List String) :
    Dict (List String) :=
  indexCats.filterMap (fun ckv =>
    let o := ckv.2.filter (fun k => k ∉ xmlKeys)
    if o.isEmpty then none else some (ckv.1, o))

/-- The shard-file loop of remove_orphaned_metadata in execute mode: for
each category with orphans whose file exists, delete the orphaned keys
present and rewrite the file; a missing category file is skipped with a
warning. -/
def removeOrphanShards (shards : Dict (Dict PRec)) :
    Dict (List String) → Dict (Dict PRec)
  | [] => shards
  | ckv :: rest =>
    match alookup shards ckv.1 with
    | none => removeOrphanShards shards rest
    | some sh =>
      removeOrphanShards
        (dictInsert shards ckv.1 (sh.filter (fun kv => kv.1 ∉ ckv.2))) rest

/-- The index update of remove_orphaned_metadata in execute mode: filter
each orphaned category's key list and drop the category entirely when it
becomes empty. -/
def removeOrphanIndex (indexCats : Dict (List String)) :
    Dict (List String) → Dict (List String)
  | [] => indexCats
  | ckv :: rest =>
    match alookup indexCats ckv.1 with
    | none => removeOrphanIndex indexCats rest
    | some ks =>
      let ks' := ks.filter (fun k => k ∉ ckv.2)
      removeOrphanIndex
        (if ks'.isEmpty then dictErase indexCats ckv.1 else dictInsert indexCats ckv.1 ks')
        rest

/-- main of cleanup_orphaned_metadata after finding orphans: both modes
compute and print the same orphan report (returned as the preview), then
execute mode removes them from shards and index while dry-run mode
changes nothing. -/
def cleanup_main (execute : Bool) (fs : CleanupFS) (xmlKeys : List String) :
    CleanupFS × Dict (List String) :=
  let orphaned := find_orphaned_metadata fs.indexCats xmlKeys
  if execute then
    (⟨removeOrphanShards fs.shards orphaned, removeOrphanIndex fs.indexCats orphaned⟩,
      orphaned)
  else (fs, orphaned)

/-- The argument parsing of cleanup_orphaned_metadata.main: dry-run unless
the explicit execute flag is present. -/
def cleanup_dry_run (argv : List String) : Bool :=
  if "--execute" ∈ argv then false else true

/-- A cleanup state: category a's shard holds k1 and k2, both indexed,
and only k2 still exists in the source strings file, so k1 is orphaned. -/
def fsC8 : CleanupFS :=
  ⟨[("a", [("k1", [("purpose", FVal.prim "p1")]),
           ("k2", [("purpose", FVal.prim "p2")])])],
   [("a", ["k1", "k2"])]⟩

/-- Example defaults record used to exercise the defaults merge. -/
def dC4 : PRec :=
  [("translation_guidance", FVal.obj [("tone", "neutral"), ("style", "descriptive")]),
   ("ui", FVal.obj [("screen", "Main")]),
   ("purpose", FVal.prim "label")]

/-- Example partial record used to exercise the defaults merge. -/
def mC4 : PRec :=
  [("translation_guidance", FVal.obj [("tone", "formal")]),
   ("purpose", FVal.prim "greet"),
   ("context", FVal.obj [("shown_when", "always")])]

/-- The effective record the merge of mC4 over dC4 produces. -/
def resC4 : PRec :=
  [("translation_guidance", FVal.obj [("tone", "formal"), ("style", "descriptive")]),
   ("ui", FVal.obj [("screen", "Main")]),
   ("purpose", FVal.prim "greet"),
   ("context", FVal.obj [("shown_when", "always")])]

/-- Repository state exhibiting index and shard drift: the index lists k
only under category a, but category b's shard file also carries a
(dangling) record for k. -/
def rC3 : Repo :=
  ⟨[("a", ["k"]), ("b", [])],
   [("a", [("k", [("purpose", FVal.prim "p1")])]),
    ("b", [("k", [("purpose", FVal.prim "p2")])])],
   []⟩

/-- Repository state in which the same key is present in two different
categories' shards, both categories being listed in the index. -/
def rC5 : Repo :=
  ⟨[("a", ["k"]), ("b", ["k"])],
   [("a", [("k", [("purpose", FVal.prim "p1")])]),
    ("b", [("k", [("purpose", FVal.prim "p2")])])],
   []⟩

theorem optOr_none_right {α : Type} (a : Option α) : optOr a none = a := by
  cases a <;> rfl

theorem optOr_assoc {α : Type} (a b c : Option α) :
    optOr (optOr a b) c = optOr a (optOr b c) := by
  cases a <;> rfl

theorem alookup_dictInsert {α : Type} (m : Dict α) (k : String) (v : α) (k' : String) :
    alookup (dictInsert m k v) k' = if k = k' then some v else alookup m k' := by
  induction m with
  | nil => simp [dictInsert, alookup]
  | cons kv rest ih =>
    simp only [dictInsert]
    by_cases h : kv.1 = k
    · rw [if_pos h]
      by_cases h2 : k = k'
      · simp [alookup, h2]
      · have h3 : ¬ kv.1 = k' := fun he => h2 (h.symm.trans he)
        simp [alookup, h2, h3]
    · rw [if_neg h]
      by_cases h2 : kv.1 = k'
      · have h3 : ¬ k = k' := fun he => h (h2.trans he.symm)
        simp [alookup, h2, h3]
      · simp [alookup, h2, ih]

theorem alookup_eq_none_iff {α : Type} (m : Dict α) (k : String) :
    alookup m k = none ↔ k ∉ dkeys m := by
  induction m with
  | nil => simp [alookup, dkeys]
  | cons kv rest ih =>
    show (if kv.1 = k then some kv.2 else alookup rest k) = none ↔ k ∉ kv.1 :: dkeys rest
    by_cases h : kv.1 = k
    · simp [h]
    · have h' : ¬ k = kv.1 := fun he => h he.symm
      simp [h, h', ih]

theorem mem_dkeys_iff_alookup {α : Type} (m : Dict α) (k : String) :
    k ∈ dkeys m ↔ alookup m k ≠ none := by
  rw [Ne, alookup_eq_none_iff, not_not]

theorem mem_dkeys_dictInsert {α : Type} (m : Dict α) (k : String) (v : α) (k' : String) :
    k' ∈ dkeys (dictInsert m k v) ↔ k' = k ∨ k' ∈ dkeys m := by
  rw [mem_dkeys_iff_alookup, alookup_dictInsert, mem_dkeys_iff_alookup]
  by_cases h : k = k'
  · simp [h, eq_comm]
  · have h' : ¬ k' = k := fun he => h he.symm
    simp [h, h']

theorem nodup_dkeys_dictInsert {α : Type} (m : Dict α) (k : String) (v : α)
    (h : (dkeys m).Nodup) : (dkeys (dictInsert m k v)).Nodup := by
  induction m with
  | nil => simp [dictInsert, dkeys]
  | cons kv rest ih =>
    rcases List.nodup_cons.1 (show (kv.1 :: dkeys rest).Nodup from h) with ⟨hni, hnd⟩
    by_cases hk : kv.1 = k
    · simp only [dictInsert, if_pos hk]
      exact List.nodup_cons.2 ⟨hk ▸ hni, hnd⟩
    · simp only [dictInsert, if_neg hk]
      refine List.nodup_cons.2 ⟨?_, ih hnd⟩
      intro hc
      rcases (mem_dkeys_dictInsert rest k v kv.1).1 hc with h1 | h2
      · exact hk h1
      · exact hni h2

theorem alookup_mem {α : Type} {m : Dict α} {k : String} {v : α}
    (h : alookup m k = some v) : (k, v) ∈ m := by
  induction m with
  | nil => simp [alookup] at h
  | cons kv rest ih =>
    obtain ⟨k0, v0⟩ := kv
    by_cases hk : k0 = k
    · subst hk
      simp [alookup] at h
      subst h
      exact List.mem_cons_self _ _
    · simp [alookup, hk] at h
      exact List.mem_cons_of_mem _ (ih h)

theorem alookup_dictUpdate {α : Type} (m u : Dict α) (k : String)
    (hu : (dkeys u).Nodup) :
    alookup (dictUpdate m u) k = optOr (alookup u k) (alookup m k) := by
  induction u generalizing m with
  | nil => simp [dictUpdate, alookup, optOr]
  | cons kv rest ih =>
    rcases List.nodup_cons.1 (show (kv.1 :: dkeys rest).Nodup from hu) with ⟨hni, hnd⟩
    have step : dictUpdate m (kv :: rest) = dictUpdate (dictInsert m kv.1 kv.2) rest := by
      simp [dictUpdate]
    rw [step, ih _ hnd]
    by_cases hk : kv.1 = k
    · have hnone : alookup rest k = none := by
        rw [alookup_eq_none_iff]
        exact hk ▸ hni
      simp [alookup, hk, hnone, alookup_dictInsert, optOr]
    · simp [alookup, hk, alookup_dictInsert, optOr]

theorem nodup_dkeys_dictUpdate {α : Type} (m u : Dict α)
    (h : (dkeys m).Nodup) : (dkeys (dictUpdate m u)).Nodup := by
  induction u generalizing m with
  | nil => simpa [dictUpdate]
  | cons kv rest ih =>
    have step : dictUpdate m (kv :: rest) = dictUpdate (dictInsert m kv.1 kv.2) rest := by
      simp [dictUpdate]
    rw [step]
    exact ih _ (nodup_dkeys_dictInsert m kv.1 kv.2 h)

theorem alookup_append {α : Type} (a b : Dict α) (k : String) :
    alookup (a ++ b) k = optOr (alookup a k) (alookup b k) := by
  induction a with
  | nil => simp [alookup, optOr]
  | cons kv rest ih =>
    by_cases h : kv.1 = k <;> simp [alookup, h, ih, optOr]

theorem alookup_mapVal {α β : Type} (m : Dict α) (f : String → α → β) (k : String) :
    alookup (m.map (fun kv => (kv.1, f kv.1 kv.2))) k = (alookup m k).map (f k) := by
  induction m with
  | nil => simp [alookup]
  | cons kv rest ih =>
    by_cases h : kv.1 = k <;> simp [alookup, h, ih]

theorem alookup_filter_of_true {α : Type} (m : Dict α) (p : String × α → Bool)
    (k : String) (hp : ∀ v, p (k, v) = true) :
    alookup (m.filter p) k = alookup m k := by
  induction m with
  | nil => simp [alookup]
  | cons kv rest ih =>
    by_cases h : kv.1 = k
    · have : p kv = true := by
        cases kv
        simp_all [hp]
      simp [List.filter, this, alookup, h, ih]
    · by_cases hpv : p kv = true <;> simp [List.filter, hpv, alookup, h, ih]

theorem alookup_filter_of_false {α : Type} (m : Dict α) (p : String × α → Bool)
    (k : String) (hp : ∀ v, p (k, v) = false) :
    alookup (m.filter p) k = none := by
  induction m with
  | nil => simp [alookup]
  | cons kv rest ih =>
    by_cases h : kv.1 = k
    · have : p kv = false := by
        cases kv
        simp_all [hp]
      simp [List.filter, this, ih]
    · by_cases hpv : p kv = true <;> simp [List.filter, hpv, alookup, h, ih]

theorem alookup_dictErase {α : Type} (m : Dict α) (k k' : String) :
    alookup (dictErase m k) k' = if k' = k then none else alookup m k' := by
  by_cases h : k' = k
  · subst h
    simp only [dictErase, if_pos rfl]
    exact alookup_filter_of_false m _ k' (fun v => by simp)
  · simp only [dictErase, if_neg h]
    exact alookup_filter_of_true m _ k' (fun v => by simp [h])

theorem alookup_mapValsM {α β : Type} (g : String → α → Option β) (m : Dict α)
    (res : Dict β) (h : mapValsM g m = some res) (k : String) :
    alookup res k =
      match alookup m k with
      | none => none
      | some v => g k v := by
  induction m generalizing res with
  | nil =>
    simp [mapValsM] at h
    subst h
    simp [alookup]
  | cons kv rest ih =>
    simp only [mapValsM] at h
    cases hg : g kv.1 kv.2 with
    | none => rw [hg] at h; simp at h
    | some w =>
      cases hr : mapValsM g rest with
      | none => rw [hg, hr] at h; simp at h
      | some res' =>
        rw [hg, hr] at h
        simp at h
        subst h
        by_cases hk : kv.1 = k
        · subst hk
          simp [alookup, hg]
        · simp [alookup, hk, ih res' hr]

theorem mapValsM_mem {α β : Type} (g : String → α → Option β) (m : Dict α)
    (res : Dict β) (h : mapValsM g m = some res) {k : String} {v : α}
    (hmem : (k, v) ∈ m) : ∃ w, g k v = some w := by
  induction m generalizing res with
  | nil => simp at hmem
  | cons kv rest ih =>
    simp only [mapValsM] at h
    cases hg : g kv.1 kv.2 with
    | none => rw [hg] at h; simp at h
    | some w =>
      cases hr : mapValsM g rest with
      | none => rw [hg, hr] at h; simp at h
      | some res' =>
        rcases List.mem_cons.1 hmem with he | hrest
        · exact ⟨w, by rw [← he] at hg; exact hg⟩
        · exact ih res' hr hrest

theorem mapValsM_dkeys {α β : Type} (g : String → α → Option β) (m : Dict α)
    (res : Dict β) (h : mapValsM g m = some res) : dkeys res = dkeys m := by
  induction m generalizing res with
  | nil =>
    simp [mapValsM] at h
    subst h
    rfl
  | cons kv rest ih =>
    simp only [mapValsM] at h
    cases hg : g kv.1 kv.2 with
    | none => rw [hg] at h; simp at h
    | some w =>
      cases hr : mapValsM g rest with
      | none => rw [hg, hr] at h; simp at h
      | some res' =>
        rw [hg, hr] at h
        simp at h
        subst h
        show kv.1 :: dkeys res' = kv.1 :: dkeys rest
        rw [ih res' hr]

theorem mem_insOne (x a : String) (l : List String) :
    a ∈ insOne x l ↔ a = x ∨ a ∈ l := by
  induction l with
  | nil => simp [insOne]
  | cons y ys ih =>
    by_cases h : strLe x y = true
    · simp [insOne, h]
    · simp only [insOne, if_neg h, List.mem_cons, ih]
      tauto

theorem mem_insSort (a : String) (l : List String) :
    a ∈ insSort l ↔ a ∈ l := by
  induction l with
  | nil => simp [insSort]
  | cons y ys ih => simp [insSort, mem_insOne, ih]

theorem mem_firstOccurAux (a : String) (l : List String) : ∀ seen : List String,
    a ∈ firstOccurAux seen l ↔ a ∈ l ∧ a ∉ seen := by
  induction l with
  | nil => intro seen; simp [firstOccurAux]
  | cons c rest ih =>
    intro seen
    by_cases h : c ∈ seen
    · rw [firstOccurAux, if_pos h, ih seen]
      constructor
      · rintro ⟨h1, h2⟩
        exact ⟨List.mem_cons_of_mem _ h1, h2⟩
      · rintro ⟨h1, h2⟩
        rcases List.mem_cons.1 h1 with rfl | h1
        · exact absurd h h2
        · exact ⟨h1, h2⟩
    · rw [firstOccurAux, if_neg h]
      constructor
      · intro hmem
        rcases List.mem_cons.1 hmem with rfl | hmem
        · exact ⟨List.mem_cons_self _ _, h⟩
        · rcases (ih (c :: seen)).1 hmem with ⟨h1, h2⟩
          exact ⟨List.mem_cons_of_mem _ h1, fun hs => h2 (List.mem_cons_of_mem _ hs)⟩
      · rintro ⟨h1, h2⟩
        rcases List.mem_cons.1 h1 with rfl | h1
        · exact List.mem_cons_self _ _
        · by_cases hac : a = c
          · exact hac ▸ List.mem_cons_self _ _
          · refine List.mem_cons_of_mem _ ((ih (c :: seen)).2 ⟨h1, ?_⟩)
            intro hs
            rcases List.mem_cons.1 hs with hq | hq
            · exact hac hq
            · exact h2 hq

theorem nodup_firstOccurAux (l seen : List String) :
    (firstOccurAux seen l).Nodup := by
  induction l generalizing seen with
  | nil => simp [firstOccurAux]
  | cons c rest ih =>
    by_cases h : c ∈ seen
    · simpa only [firstOccurAux, if_pos h] using ih seen
    · simp only [firstOccurAux, if_neg h]
      refine List.nodup_cons.2 ⟨?_, ih (c :: seen)⟩
      intro hc
      exact ((mem_firstOccurAux c rest (c :: seen)).1 hc).2 (List.mem_cons_self _ _)

theorem mem_firstOccur (a : String) (l : List String) :
    a ∈ firstOccur l ↔ a ∈ l := by
  simp [firstOccur, mem_firstOccurAux]

theorem nodup_firstOccur (l : List String) : (firstOccur l).Nodup :=
  nodup_firstOccurAux l []

theorem merge_with_defaults_nil (m : PRec) : merge_with_defaults [] m = some m := by
  have hf : List.filter (fun kv => (alookup ([] : PRec) kv.1).isNone) m = m :=
    List.filter_eq_self.2 (fun a _ => rfl)
  show some ([] ++ m.filter fun kv => (alookup [] kv.1).isNone) = some m
  rw [List.nil_append, hf]

theorem merge_unpack (d m res : PRec) (h : merge_with_defaults d m = some res) :
    ∃ base, mapValsM (mergeEntry m) d = some base ∧
      res = base ++ m.filter (fun kv => (alookup d kv.1).isNone) := by
  unfold merge_with_defaults at h
  cases hb : mapValsM (mergeEntry m) d with
  | none => rw [hb] at h; simp at h
  | some base =>
    rw [hb] at h
    simp at h
    exact ⟨base, rfl, h.symm⟩

theorem merge_lookup_of_default (d m res : PRec)
    (h : merge_with_defaults d m = some res) (k : String) (dv : FVal)
    (hd : alookup d k = some dv) :
    alookup res k = mergeEntry m k dv := by
  rcases merge_unpack d m res h with ⟨base, hb, hres⟩
  rcases mapValsM_mem (mergeEntry m) d base hb (alookup_mem hd) with ⟨w, hw⟩
  have hbk : alookup base k = some w := by
    rw [alookup_mapValsM (mergeEntry m) d base hb k, hd]
    exact hw
  rw [hres, alookup_append, hbk, hw]
  rfl

theorem merge_lookup_of_not_default (d m res : PRec)
    (h : merge_with_defaults d m = some res) (k : String)
    (hd : alookup d k = none) :
    alookup res k = alookup m k := by
  rcases merge_unpack d m res h with ⟨base, hb, hres⟩
  have hbk : alookup base k = none := by
    rw [alookup_mapValsM (mergeEntry m) d base hb k, hd]
  rw [hres, alookup_append, hbk]
  show alookup (m.filter _) k = alookup m k
  exact alookup_filter_of_true m _ k (fun v => by simp [hd])

theorem get_category_unpack (r : Repo) (c : String) (cm : Dict PRec)
    (h : get_category_metadata r c = Except.ok cm) :
    ∃ shard, alookup r.shards c = some shard ∧
      mapValsM (fun _ m => merge_with_defaults r.defaults m) shard = some cm := by
  unfold get_category_metadata at h
  split at h
  · simp at h
  · next shard hs =>
    split at h
    · simp at h
    · next res hm =>
      refine ⟨shard, hs, ?_⟩
      rw [hm]
      exact congrArg some (Except.ok.inj h)

theorem get_category_lookup (r : Repo) (c : String) (cm : Dict PRec)
    (h : get_category_metadata r c = Except.ok cm) (k : String) :
    alookup cm k = catLookup r c k := by
  rcases get_category_unpack r c cm h with ⟨shard, hs, hm⟩
  rw [alookup_mapValsM _ shard cm hm k]
  simp only [catLookup, hs]
  cases alookup shard k <;> rfl

theorem get_category_nodup (r : Repo) (c : String) (cm : Dict PRec)
    (hsh : ∀ c' sh, alookup r.shards c' = some sh → (dkeys sh).Nodup)
    (h : get_category_metadata r c = Except.ok cm) : (dkeys cm).Nodup := by
  rcases get_category_unpack r c cm h with ⟨shard, hs, hm⟩
  rw [mapValsM_dkeys _ shard cm hm]
  exact hsh c shard hs

theorem get_all_go_ok_lookup (r : Repo) (cats : List String) (acc all : Dict PRec)
    (hsh : ∀ c sh, alookup r.shards c = some sh → (dkeys sh).Nodup)
    (h : get_all_go r cats acc = Except.ok all) (k : String) :
    alookup all k = optOr (lastLookup r cats k) (alookup acc k) := by
  induction cats generalizing acc with
  | nil =>
    simp [get_all_go] at h
    subst h
    rfl
  | cons c rest ih =>
    simp only [get_all_go] at h
    cases hc : get_category_metadata r c with
    | error e => rw [hc] at h; simp at h
    | ok cm =>
      rw [hc] at h
      have hlk := ih (dictUpdate acc cm) h
      rw [hlk, alookup_dictUpdate acc cm k (get_category_nodup r c cm hsh hc),
        get_category_lookup r c cm hc k]
      show _ = optOr (optOr (lastLookup r rest k) (catLookup r c k)) (alookup acc k)
      rw [optOr_assoc]

theorem get_all_go_nodup (r : Repo) (cats : List String) (acc all : Dict PRec)
    (hacc : (dkeys acc).Nodup) (h : get_all_go r cats acc = Except.ok all) :
    (dkeys all).Nodup := by
  induction cats generalizing acc with
  | nil =>
    simp [get_all_go] at h
    subst h
    exact hacc
  | cons c rest ih =>
    simp only [get_all_go] at h
    cases hc : get_category_metadata r c with
    | error e => rw [hc] at h; simp at h
    | ok cm =>
      rw [hc] at h
      exact ih (dictUpdate acc cm) (nodup_dkeys_dictUpdate acc cm hacc) h

theorem get_all_go_ok_of_mem (r : Repo) (cats : List String) (acc all : Dict PRec)
    (h : get_all_go r cats acc = Except.ok all) (c : String) (hc : c ∈ cats) :
    ∃ cm, get_category_metadata r c = Except.ok cm := by
  induction cats generalizing acc with
  | nil => simp at hc
  | cons c0 rest ih =>
    simp only [get_all_go] at h
    cases hc0 : get_category_metadata r c0 with
    | error e => rw [hc0] at h; simp at h
    | ok cm =>
      rw [hc0] at h
      rcases List.mem_cons.1 hc with rfl | hrest
      · exact ⟨cm, hc0⟩
      · exact ih (dictUpdate acc cm) h hrest

theorem lastLookup_none (r : Repo) (cats : List String) (k : String)
    (h : ∀ c ∈ cats, catLookup r c k = none) : lastLookup r cats k = none := by
  induction cats with
  | nil => rfl
  | cons c rest ih =>
    show optOr (lastLookup r rest k) (catLookup r c k) = none
    rw [ih (fun c' hc' => h c' (List.mem_cons_of_mem _ hc')),
      h c (List.mem_cons_self _ _)]
    rfl

theorem lastLookup_of_unique (r : Repo) (cats : List String) (c k : String)
    (hc : c ∈ cats) (hN : cats.Nodup)
    (hothers : ∀ c' ∈ cats, c' ≠ c → catLookup r c' k = none) :
    lastLookup r cats k = catLookup r c k := by
  induction cats with
  | nil => simp at hc
  | cons c0 rest ih =>
    rcases List.nodup_cons.1 hN with ⟨hni, hnd⟩
    show optOr (lastLookup r rest k) (catLookup r c0 k) = catLookup r c k
    rcases List.mem_cons.1 hc with rfl | hrest
    · rw [lastLookup_none r rest k
        (fun c' hc' => hothers c' (List.mem_cons_of_mem _ hc')
          (fun he => hni (he ▸ hc')))]
      rfl
    · have hc0 : c0 ≠ c := fun he => hni (he ▸ hrest)
      rw [ih hrest hnd (fun c' hc' hne => hothers c' (List.mem_cons_of_mem _ hc') hne),
        hothers c0 (List.mem_cons_self _ _) hc0, optOr_none_right]

theorem findCategory_of_unique (idx : Dict (List String)) (k c : String)
    (ks : List String) (hmem : (c, ks) ∈ idx) (hk : k ∈ ks)
    (huniq : ∀ c' ks', (c', ks') ∈ idx → k ∈ ks' → c' = c) :
    findCategory idx k = some c := by
  induction idx with
  | nil => simp at hmem
  | cons ckv rest ih =>
    obtain ⟨c0, ks0⟩ := ckv
    show (if k ∈ ks0 then some c0 else findCategory rest k) = some c
    by_cases h : k ∈ ks0
    · rw [if_pos h]
      exact congrArg some (huniq c0 ks0 (List.mem_cons_self _ _) h)
    · rw [if_neg h]
      rcases List.mem_cons.1 hmem with he | hrest
      · injection he with h1 h2
        subst h1
        subst h2
        exact absurd hk h
      · exact ih hrest (fun c' ks' hm' hk' =>
          huniq c' ks' (List.mem_cons_of_mem _ hm') hk')

theorem dkeys_filter_subset {α : Type} (m : Dict α) (p : String × α → Bool)
    (k : String) (h : k ∈ dkeys (m.filter p)) : k ∈ dkeys m := by
  rcases List.mem_map.1 h with ⟨e, he, hek⟩
  exact List.mem_map.2 ⟨e, List.mem_of_mem_filter he, hek⟩

theorem alookup_filter_nodup {α : Type} (m : Dict α) (p : String × α → Bool)
    (k : String) (hN : (dkeys m).Nodup) :
    alookup (m.filter p) k =
      match alookup m k with
      | none => none
      | some v => if p (k, v) then some v else none := by
  induction m with
  | nil => simp [alookup]
  | cons kv rest ih =>
    obtain ⟨k0, v0⟩ := kv
    rcases List.nodup_cons.1 (show (k0 :: dkeys rest).Nodup from hN) with ⟨hni, hnd⟩
    by_cases hp : p (k0, v0) = true
    · rw [List.filter_cons_of_pos hp]
      by_cases hk : k0 = k
      · subst hk
        simp [alookup, hp]
      · simp only [alookup, if_neg hk]
        exact ih hnd
    · rw [List.filter_cons_of_neg (by simpa using hp)]
      by_cases hk : k0 = k
      · subst hk
        have h1 : alookup (rest.filter p) k0 = none := by
          rw [alookup_eq_none_iff]
          exact fun hc => hni (dkeys_filter_subset rest p k0 hc)
        simp [alookup, h1, hp]
      · simp only [alookup, if_neg hk]
        exact ih hnd

theorem translateLoop_failed_iff (s : Session) (srv : String → StepResult)
    (l : List String) (k : String) :
    k ∈ (translateLoop s srv l).2 ↔ k ∈ l ∧ translate_string s srv k = [] := by
  induction l with
  | nil => simp [translateLoop]
  | cons k0 rest ih =>
    simp only [translateLoop]
    by_cases he : (translate_string s srv k0).isEmpty
    · rw [if_pos he]
      show k ∈ k0 :: (translateLoop s srv rest).2 ↔ _
      constructor
      · intro hm
        rcases List.mem_cons.1 hm with rfl | hm
        · exact ⟨List.mem_cons_self _ _, List.isEmpty_iff.1 he⟩
        · rcases ih.1 hm with ⟨h1, h2⟩
          exact ⟨List.mem_cons_of_mem _ h1, h2⟩
      · rintro ⟨h1, h2⟩
        rcases List.mem_cons.1 h1 with rfl | h1
        · exact List.mem_cons_self _ _
        · exact List.mem_cons_of_mem _ (ih.2 ⟨h1, h2⟩)
    · rw [if_neg he]
      show k ∈ (translateLoop s srv rest).2 ↔ _
      rw [ih]
      constructor
      · rintro ⟨h1, h2⟩
        exact ⟨List.mem_cons_of_mem _ h1, h2⟩
      · rintro ⟨h1, h2⟩
        rcases List.mem_cons.1 h1 with rfl | h1
        · exact absurd (List.isEmpty_iff.2 h2) he
        · exact ⟨h1, h2⟩

theorem translateLoop_lookup (s : Session) (srv : String → StepResult)
    (l : List String) (k : String) :
    alookup (translateLoop s srv l).1 k =
      if k ∈ l ∧ translate_string s srv k ≠ [] then some (translate_string s srv k)
      else none := by
  induction l with
  | nil => simp [translateLoop, alookup]
  | cons k0 rest ih =>
    simp only [translateLoop]
    by_cases he : (translate_string s srv k0).isEmpty
    · rw [if_pos he]
      show alookup (translateLoop s srv rest).1 k = _
      rw [ih]
      by_cases hk : k ∈ rest ∧ translate_string s srv k ≠ []
      · rw [if_pos hk, if_pos ⟨List.mem_cons_of_mem _ hk.1, hk.2⟩]
      · rw [if_neg hk, if_neg ?_]
        rintro ⟨h1, h2⟩
        rcases List.mem_cons.1 h1 with rfl | h1
        · exact h2 (List.isEmpty_iff.1 he)
        · exact hk ⟨h1, h2⟩
    · rw [if_neg he]
      show alookup ((k0, translate_string s srv k0) :: (translateLoop s srv rest).1) k = _
      by_cases hk : k0 = k
      · subst hk
        simp only [alookup, if_pos rfl]
        have hcond : k0 ∈ k0 :: rest ∧ translate_string s srv k0 ≠ [] :=
          ⟨List.mem_cons_self _ _, fun hc => he (List.isEmpty_iff.2 hc)⟩
        rw [if_pos hcond]
        simp
      · simp only [alookup, if_neg hk]
        rw [ih]
        by_cases hr : k ∈ rest ∧ translate_string s srv k ≠ []
        · rw [if_pos hr, if_pos ⟨List.mem_cons_of_mem _ hr.1, hr.2⟩]
        · rw [if_neg hr, if_neg ?_]
          rintro ⟨h1, h2⟩
          rcases List.mem_cons.1 h1 with rfl | h1
          · exact hk rfl
          · exact hr ⟨h1, h2⟩

theorem dkeys_find_orphaned_sublist (idx : Dict (List String)) (xml : List String) :
    (dkeys (find_orphaned_metadata idx xml)).Sublist (dkeys idx) := by
  induction idx with
  | nil => simp [find_orphaned_metadata, dkeys]
  | cons ckv rest ih =>
    simp only [find_orphaned_metadata, List.filterMap_cons] at ih ⊢
    by_cases h : (ckv.2.filter (fun k => k ∉ xml)).isEmpty
    · rw [if_pos h]
      exact List.Sublist.cons _ ih
    · rw [if_neg h]
      exact List.Sublist.cons₂ _ ih

theorem removeOrphanShards_not_mem (orphaned : Dict (List String))
    (shards : Dict (Dict PRec)) (c : String) (hc : c ∉ dkeys orphaned) :
    alookup (removeOrphanShards shards orphaned) c = alookup shards c := by
  induction orphaned generalizing shards with
  | nil => rfl
  | cons ckv rest ih =>
    have hc1 : ckv.1 ≠ c := by
      intro he
      exact hc (he ▸ List.mem_cons_self _ _)
    have hcr : c ∉ dkeys rest := fun hr => hc (List.mem_cons_of_mem _ hr)
    simp only [removeOrphanShards]
    cases alookup shards ckv.1 with
    | none => exact ih shards hcr
    | some sh =>
      show alookup (removeOrphanShards
          (dictInsert shards ckv.1 (sh.filter (fun kv => kv.1 ∉ ckv.2))) rest) c =
        alookup shards c
      rw [ih _ hcr, alookup_dictInsert, if_neg hc1]

theorem removeOrphanShards_mem (orphaned : Dict (List String))
    (shards : Dict (Dict PRec)) (c : String) (oks : List String)
    (hN : (dkeys orphaned).Nodup) (hmem : (c, oks) ∈ orphaned)
    (sh : Dict PRec) (hsh : alookup shards c = some sh) :
    alookup (removeOrphanShards shards orphaned) c =
      some (sh.filter (fun kv => kv.1 ∉ oks)) := by
  induction orphaned generalizing shards with
  | nil => simp at hmem
  | cons ckv rest ih =>
    obtain ⟨c0, oks0⟩ := ckv
    rcases List.nodup_cons.1 (show (c0 :: dkeys rest).Nodup from hN) with ⟨hni, hnd⟩
    rcases List.mem_cons.1 hmem with he | hrest
    · injection he with h1 h2
      subst h1
      subst h2
      simp only [removeOrphanShards, hsh]
      have hcr : c ∉ dkeys rest := hni
      rw [removeOrphanShards_not_mem rest _ c hcr, alookup_dictInsert, if_pos rfl]
    · have hc0 : c0 ≠ c := by
        intro he
        exact hni (he ▸ List.mem_map.2 ⟨(c, oks), hrest, rfl⟩)
      simp only [removeOrphanShards]
      cases alookup shards c0 with
      | none => exact ih shards hnd hrest hsh
      | some sh0 =>
        show alookup (removeOrphanShards
            (dictInsert shards c0 (sh0.filter (fun kv => kv.1 ∉ oks0))) rest) c = _
        refine ih _ hnd hrest ?_
        rw [alookup_dictInsert, if_neg hc0]
        exact hsh

theorem removeOrphanIndex_not_mem (orphaned : Dict (List String))
    (idx : Dict (List String)) (c : String) (hc : c ∉ dkeys orphaned) :
    alookup (removeOrphanIndex idx orphaned) c = alookup idx c := by
  induction orphaned generalizing idx with
  | nil => rfl
  | cons ckv rest ih =>
    have hc1 : ckv.1 ≠ c := by
      intro he
      exact hc (he ▸ List.mem_cons_self _ _)
    have hcr : c ∉ dkeys rest := fun hr => hc (List.mem_cons_of_mem _ hr)
    simp only [removeOrphanIndex]
    cases alookup idx ckv.1 with
    | none => exact ih idx hcr
    | some ks =>
      show alookup (removeOrphanIndex
          (if (ks.filter (fun k => k ∉ ckv.2)).isEmpty then dictErase idx ckv.1
           else dictInsert idx ckv.1 (ks.filter (fun k => k ∉ ckv.2))) rest) c =
        alookup idx c
      rw [ih _ hcr]
      by_cases hemp : ((ks.filter (fun k => k ∉ ckv.2)).isEmpty : Bool)
      · rw [if_pos hemp, alookup_dictErase, if_neg (fun he => hc1 he.symm)]
      · rw [if_neg hemp, alookup_dictInsert, if_neg hc1]

theorem removeOrphanIndex_mem (orphaned : Dict (List String))
    (idx : Dict (List String)) (c : String) (oks : List String)
    (hN : (dkeys orphaned).Nodup) (hmem : (c, oks) ∈ orphaned)
    (ks : List String) (hks : alookup idx c = some ks) :
    alookup (removeOrphanIndex idx orphaned) c =
      (if (ks.filter (fun k => k ∉ oks)).isEmpty then none
       else some (ks.filter (fun k => k ∉ oks))) := by
  induction orphaned generalizing idx with
  | nil => simp at hmem
  | cons ckv rest ih =>
    obtain ⟨c0, oks0⟩ := ckv
    rcases List.nodup_cons.1 (show (c0 :: dkeys rest).Nodup from hN) with ⟨hni, hnd⟩
    rcases List.mem_cons.1 hmem with he | hrest
    · injection he with h1 h2
      subst h1
      subst h2
      simp only [removeOrphanIndex, hks]
      have hcr : c ∉ dkeys rest := hni
      show alookup (removeOrphanIndex
          (if (ks.filter (fun k => k ∉ oks)).isEmpty then dictErase idx c
           else dictInsert idx c (ks.filter (fun k => k ∉ oks))) rest) c = _
      by_cases hemp : ((ks.filter (fun k => k ∉ oks)).isEmpty : Bool)
      · rw [if_pos hemp, removeOrphanIndex_not_mem rest _ c hcr, alookup_dictErase,
          if_pos rfl, if_pos hemp]
      · rw [if_neg hemp, removeOrphanIndex_not_mem rest _ c hcr, alookup_dictInsert,
          if_pos rfl, if_neg hemp]
    · have hc0 : c0 ≠ c := by
        intro he
        exact hni (he ▸ List.mem_map.2 ⟨(c, oks), hrest, rfl⟩)
      simp only [removeOrphanIndex]
      cases alookup idx c0 with
      | none => exact ih idx hnd hrest hks
      | some ks0 =>
        show alookup (removeOrphanIndex
            (if (ks0.filter (fun k => k ∉ oks0)).isEmpty then dictErase idx c0
             else dictInsert idx c0 (ks0.filter (fun k => k ∉ oks0))) rest) c = _
        by_cases hemp : ((ks0.filter (fun k => k ∉ oks0)).isEmpty : Bool)
        · rw [if_pos hemp]
          refine ih _ hnd hrest ?_
          rw [alookup_dictErase, if_neg (fun he => hc0 he.symm)]
          exact hks
        · rw [if_neg hemp]
          refine ih _ hnd hrest ?_
          rw [alookup_dictInsert, if_neg hc0]
          exact hks

theorem alookup_foldl_dictInsert {α : Type} (g : String → α) (cats : List String)
    (m0 : Dict α) (c : String) :
    alookup (cats.foldl (fun fs c' => dictInsert fs c' (g c')) m0) c =
      if c ∈ cats then some (g c) else alookup m0 c := by
  induction cats generalizing m0 with
  | nil => simp
  | cons c0 rest ih =>
    show alookup (rest.foldl _ (dictInsert m0 c0 (g c0))) c = _
    rw [ih (dictInsert m0 c0 (g c0))]
    by_cases hcr : c ∈ rest
    · rw [if_pos hcr, if_pos (List.mem_cons_of_mem _ hcr)]
    · rw [if_neg hcr, alookup_dictInsert]
      by_cases hc0 : c0 = c
      · rw [if_pos hc0, if_pos (hc0 ▸ List.mem_cons_self _ _), hc0]
      · rw [if_neg hc0, if_neg ?_]
        intro hm
        rcases List.mem_cons.1 hm with rfl | hm
        · exact hc0 rfl
        · exact hcr hm

theorem alookup_graph {α : Type} (g : String → α) (cats : List String) (c : String) :
    alookup (cats.map (fun c' => (c', g c'))) c =
      if c ∈ cats then some (g c) else none := by
  induction cats with
  | nil => simp [alookup]
  | cons c0 rest ih =>
    show (if c0 = c then some (g c0) else alookup (rest.map _) c) = _
    by_cases hc0 : c0 = c
    · rw [if_pos hc0, if_pos (hc0 ▸ List.mem_cons_self _ _), hc0]
    · rw [if_neg hc0, ih]
      by_cases hcr : c ∈ rest
      · rw [if_pos hcr, if_pos (List.mem_cons_of_mem _ hcr)]
      · rw [if_neg hcr, if_neg ?_]
        intro hm
        rcases List.mem_cons.1 hm with rfl | hm
        · exact hc0 rfl
        · exact hcr hm

theorem mem_catsOf (w : Dict SRec) (k : String) (r : SRec)
    (h : alookup w k = some r) : effCategory r.category ∈ catsOf w := by
  rw [catsOf, mem_firstOccur]
  exact List.mem_map.2 ⟨(k, r), alookup_mem h, rfl⟩

theorem mgrSave_files_lookup (st : MgrState) (w : Dict SRec) (c : String) :
    alookup (mgrSave st w).files c =
      if c ∈ catsOf w then some (groupOf w c) else alookup st.files c := by
  show alookup ((catsOf w).foldl (fun fs c' => dictInsert fs c' (groupOf w c')) st.files) c = _
  exact alookup_foldl_dictInsert (groupOf w) (catsOf w) st.files c

theorem mgrSave_index_lookup (st : MgrState) (w : Dict SRec) (c : String) :
    alookup (mgrSave st w).indexCats c =
      if c ∈ catsOf w then some (insSort (dkeys (groupOf w c))) else none := by
  show alookup ((catsOf w).map (fun c' => (c', insSort (dkeys (groupOf w c'))))) c = _
  exact alookup_graph (fun c' => insSort (dkeys (groupOf w c'))) (catsOf w) c

theorem groupOf_lookup (w : Dict SRec) (c k : String) (hN : (dkeys w).Nodup) :
    alookup (groupOf w c) k =
      match alookup w k with
      | none => none
      | some r => if effCategory r.category = c then some r else none := by
  rw [show groupOf w c = w.filter (fun kv => effCategory kv.2.category = c) from rfl,
    alookup_filter_nodup w _ k hN]
  cases alookup w k <;> simp

theorem mem_dkeys_groupOf (w : Dict SRec) (c k : String) (hN : (dkeys w).Nodup) :
    k ∈ dkeys (groupOf w c) ↔
      ∃ r, alookup w k = some r ∧ effCategory r.category = c := by
  rw [mem_dkeys_iff_alookup, groupOf_lookup w c k hN]
  cases hw : alookup w k with
  | none => simp
  | some r =>
    by_cases hc : effCategory r.category = c
    · simp [hc]
    · simp [hc]

theorem keysToTranslate_nil (s : Session) (stores : Dict (Dict String))
    (h : ∀ k ∈ s.metadataKeys, isComplete stores s.targets k = true) :
    keysToTranslate s stores = [] :=
  List.filter_eq_nil_iff.2 (fun k hk => by simp [h k hk])

theorem save_translations_nil (stores : Dict (Dict String)) :
    save_translations stores [] = stores := by
  rfl

theorem alookup_map_escape (m : Dict String) (k : String) :
    alookup (m.map (fun kv => (kv.1, escape_android_string kv.2))) k =
      (alookup m k).map escape_android_string := by
  induction m with
  | nil => simp [alookup]
  | cons kv rest ih =>
    by_cases h : kv.1 = k <;> simp [alookup, h, ih]

theorem dkeys_map_escape (m : Dict String) :
    dkeys (m.map (fun kv => (kv.1, escape_android_string kv.2))) = dkeys m := by
  show List.map Prod.fst _ = _
  rw [List.map_map]
  rfl

/-- C2: merge non-destructiveness and single escaping for the per-locale
output merge of save_translations. After the merge, every key produced in
this session maps to escape_android_string of its newly translated value
(escape applied exactly once, at this point only), and every other key
keeps its previously persisted value untouched, never re-escaped. -/
theorem C2_output_merge (existing newT : Dict String) (k : String)
    (hN : (dkeys newT).Nodup) :
    alookup (mergeLocaleFile existing newT) k =
      match alookup newT k with
      | none => alookup existing k
      | some v => some (escape_android_string v) := by
  unfold mergeLocaleFile
  rw [alookup_dictUpdate existing _ k (by rw [dkeys_map_escape]; exact hN),
    alookup_map_escape]
  cases alookup newT k <;> rfl

/-- Witness for C2 at the spec's own example: persisted X old, new batch
producing Y new; the merged mapping keeps X old and adds Y escaped. -/
theorem C2_output_merge_witness :
    (dkeys ([("Y", "new")] : Dict String)).Nodup ∧
    alookup (mergeLocaleFile [("X", "old")] [("Y", "new")]) "Y" =
      some (escape_android_string "new") ∧
    alookup (mergeLocaleFile [("X", "old")] [("Y", "new")]) "X" = some "old" := by
  refine ⟨by decide, ?_, ?_⟩
  · rw [C2_output_merge [("X", "old")] [("Y", "new")] "Y" (by decide)]
    decide
  · rw [C2_output_merge [("X", "old")] [("Y", "new")] "X" (by decide)]
    decide

theorem load_defaults_idem (s : IOCache) :
    load_defaults (load_defaults s).2 = ((load_defaults s).1, (load_defaults s).2) := by
  unfold load_defaults
  cases hc : s.defaultsCache <;> simp [hc]

theorem load_defaults_fields (s : IOCache) :
    (load_defaults s).2.defaultsFileExists = s.defaultsFileExists ∧
    (load_defaults s).2.defaultsFileData = s.defaultsFileData := by
  unfold load_defaults
  cases s.defaultsCache <;> simp

/-- C4: defaults merge semantics. For a composite default the effective
value is the default's fields overridden key-by-key by the record's
same-named group, or the default's fields alone when the record has no
such group; for a scalar default the record's value replaces it entirely
when present; fields of the record absent from the defaults pass through
unchanged. Running the instance method twice on the same record yields
the same output and leaves the instance state (cached defaults and all
defaults storage fields) unchanged after the first call. -/
theorem C4_defaults_merge (d m res : PRec)
    (hmerge : merge_with_defaults d m = some res)
    (k1 : String) (dl1 ml1 : Dict String)
    (h1d : alookup d k1 = some (FVal.obj dl1))
    (h1m : alookup m k1 = some (FVal.obj ml1))
    (k2 : String) (dl2 : Dict String)
    (h2d : alookup d k2 = some (FVal.obj dl2)) (h2m : alookup m k2 = none)
    (k3 sc3 : String) (h3d : alookup d k3 = some (FVal.prim sc3))
    (k4 : String) (h4d : alookup d k4 = none)
    (s : IOCache) :
    alookup res k1 = some (FVal.obj (dictUpdate dl1 ml1)) ∧
    alookup res k2 = some (FVal.obj dl2) ∧
    alookup res k3 = some ((alookup m k3).getD (FVal.prim sc3)) ∧
    alookup res k4 = alookup m k4 ∧
    (merge_with_defaults_st s m).1 =
      (merge_with_defaults_st (merge_with_defaults_st s m).2 m).1 ∧
    (merge_with_defaults_st (merge_with_defaults_st s m).2 m).2 =
      (merge_with_defaults_st s m).2 ∧
    (merge_with_defaults_st s m).2.defaultsFileExists = s.defaultsFileExists ∧
    (merge_with_defaults_st s m).2.defaultsFileData = s.defaultsFileData := by
  refine ⟨?_, ?_, ?_, ?_, ?_, ?_, ?_, ?_⟩
  · rw [merge_lookup_of_default d m res hmerge k1 _ h1d]
    simp [mergeEntry, h1m]
  · rw [merge_lookup_of_default d m res hmerge k2 _ h2d]
    simp [mergeEntry, h2m]
  · rw [merge_lookup_of_default d m res hmerge k3 _ h3d]
    simp [mergeEntry]
  · exact merge_lookup_of_not_default d m res hmerge k4 h4d
  · show merge_with_defaults (load_defaults s).1 m =
      (merge_with_defaults_st (load_defaults s).2 m).1
    unfold merge_with_defaults_st
    rw [load_defaults_idem]
  · show (merge_with_defaults_st (load_defaults s).2 m).2 = (load_defaults s).2
    unfold merge_with_defaults_st
    rw [load_defaults_idem]
  · exact (load_defaults_fields s).1
  · exact (load_defaults_fields s).2

/-- Witness for C4 on a concrete defaults record and partial record: the
group override keeps the unsupplied style field, the scalar and
pass-through cases behave as claimed, and the repeated stateful merge is
stable. -/
theorem C4_defaults_merge_witness :
    merge_with_defaults dC4 mC4 = some resC4 ∧
    alookup resC4 "translation_guidance" =
      some (FVal.obj [("tone", "formal"), ("style", "descriptive")]) ∧
    alookup resC4 "ui" = some (FVal.obj [("screen", "Main")]) ∧
    alookup resC4 "purpose" = some (FVal.prim "greet") ∧
    alookup resC4 "context" = some (FVal.obj [("shown_when", "always")]) ∧
    (merge_with_defaults_st ⟨true, dC4, none⟩ mC4).1 =
      (merge_with_defaults_st (merge_with_defaults_st ⟨true, dC4, none⟩ mC4).2 mC4).1 := by
  have h := C4_defaults_merge dC4 mC4 resC4 (by decide)
    "translation_guidance" [("tone", "neutral"), ("style", "descriptive")]
    [("tone", "formal")] (by decide) (by decide)
    "ui" [("screen", "Main")] (by decide) (by decide)
    "purpose" "label" (by decide)
    "context" (by decide)
    ⟨true, dC4, none⟩
  refine ⟨by decide, ?_, ?_, ?_, ?_, h.2.2.2.2.1⟩
  · rw [h.1]
    decide
  · exact h.2.1
  · rw [h.2.2.1]
    decide
  · rw [h.2.2.2.1]
    decide

/-- C10: with no defaults file the loaded defaults mapping is empty, and
get_string_metadata then returns exactly the stored partial record for
every key it finds: the empty-defaults merge adds, removes and alters no
top-level field. -/
theorem C10_empty_defaults_identity (idx : Dict (List String))
    (shards : Dict (Dict PRec)) (key cat : String) (shard : Dict PRec) (meta : PRec)
    (s : IOCache) (hfe : s.defaultsFileExists = false) (hcache : s.defaultsCache = none)
    (hfind : findCategory idx key = some cat)
    (hsh : alookup shards cat = some shard)
    (hmeta : alookup shard key = some meta) :
    (load_defaults s).1 = [] ∧
    get_string_metadata ⟨idx, shards, (load_defaults s).1⟩ key = Except.ok (some meta) := by
  have hld : (load_defaults s).1 = [] := by
    unfold load_defaults
    rw [hcache]
    simp [hfe]
  refine ⟨hld, ?_⟩
  rw [hld]
  simp only [get_string_metadata, hfind, hsh, hmeta, merge_with_defaults_nil]

/-- Witness for C10: a one-category repository with no defaults file;
the returned record is exactly the stored partial record. -/
theorem C10_empty_defaults_identity_witness :
    findCategory [("general", ["app_name"])] "app_name" = some "general" ∧
    (load_defaults ⟨false, [], none⟩).1 = [] ∧
    get_string_metadata
      ⟨[("general", ["app_name"])],
       [("general", [("app_name", [("purpose", FVal.prim "x")])])],
       (load_defaults ⟨false, [], none⟩).1⟩ "app_name" =
      Except.ok (some [("purpose", FVal.prim "x")]) := by
  have h := C10_empty_defaults_identity [("general", ["app_name"])]
    [("general", [("app_name", [("purpose", FVal.prim "x")])])] "app_name" "general"
    [("app_name", [("purpose", FVal.prim "x")])] [("purpose", FVal.prim "x")]
    ⟨false, [], none⟩ rfl rfl (by decide) (by decide) (by decide)
  exact ⟨by decide, h.1, h.2⟩

/-- C3 counterexample: in the state rC3 the key k appears in exactly one
category's index key-set (a's, while b's is empty) and a's shard contains
its record, yet get_string_metadata returns a's record while the entry
for k in get_all_metadata is b's dangling record, because the bulk path
walks shard contents rather than the index key-sets. -/
theorem C3_counterexample :
    ("k" ∈ ["k"] ∧ "k" ∉ ([] : List String)) ∧
    alookup rC3.shards "a" = some [("k", [("purpose", FVal.prim "p1")])] ∧
    get_string_metadata rC3 "k" = Except.ok (some [("purpose", FVal.prim "p1")]) ∧
    get_all_metadata rC3 = Except.ok [("k", [("purpose", FVal.prim "p2")])] ∧
    ([("purpose", FVal.prim "p1")] : PRec) ≠ [("purpose", FVal.prim "p2")] :=
  ⟨by decide, by decide, rfl, rfl, by decide⟩

/-- C3 amended: single-read and bulk-read agree for a documented key
provided additionally no other category's shard contains a (dangling)
record for the key; index categories and shard files are Python dicts,
so their key lists are duplicate-free. -/
theorem C3_single_bulk_consistency (r : Repo) (k c : String) (ks : List String)
    (all : Dict PRec)
    (hidxN : (dkeys r.indexCats).Nodup)
    (hshN : ∀ e ∈ r.shards, (dkeys e.2).Nodup)
    (hmem : (c, ks) ∈ r.indexCats) (hk : k ∈ ks)
    (huniq : ∀ e ∈ r.indexCats, k ∈ e.2 → e.1 = c)
    (shard : Dict PRec) (hsh : alookup r.shards c = some shard)
    (hin : k ∈ dkeys shard)
    (hnodangle : ∀ e ∈ r.shards, e.1 ≠ c → alookup e.2 k = none)
    (hall : get_all_metadata r = Except.ok all) :
    ∃ mrec, get_string_metadata r k = Except.ok (some mrec) ∧
      alookup all k = some mrec := by
  have hfind : findCategory r.indexCats k = some c :=
    findCategory_of_unique r.indexCats k c ks hmem hk
      (fun c' ks' hm' hk' => huniq (c', ks') hm' hk')
  have hcmem : c ∈ dkeys r.indexCats := List.mem_map.2 ⟨(c, ks), hmem, rfl⟩
  have hgo : get_all_go r (dkeys r.indexCats) [] = Except.ok all := hall
  rcases get_all_go_ok_of_mem r (dkeys r.indexCats) [] all hgo c hcmem with ⟨cm, hcm⟩
  rcases get_category_unpack r c cm hcm with ⟨shard', hs', hm'⟩
  have hshard : shard' = shard := by
    rw [hsh] at hs'
    exact (Option.some.inj hs').symm
  rw [hshard] at hm'
  have hmeta : ∃ meta, alookup shard k = some meta := by
    rcases hv : alookup shard k with _ | meta
    · exact absurd ((alookup_eq_none_iff shard k).1 hv) (fun hc => hc hin)
    · exact ⟨meta, rfl⟩
  rcases hmeta with ⟨meta, hmeta⟩
  rcases mapValsM_mem _ shard cm hm' (alookup_mem hmeta) with ⟨w, hw⟩
  refine ⟨w, ?_, ?_⟩
  · simp only [get_string_metadata, hfind, hsh, hmeta, hw]
  · have hlk := get_all_go_ok_lookup r (dkeys r.indexCats) [] all
      (fun c' sh h => hshN (c', sh) (alookup_mem h)) hgo k
    have hcat : catLookup r c k = some w := by
      simp only [catLookup, hsh, hmeta]
      exact hw
    have hothers : ∀ c' ∈ dkeys r.indexCats, c' ≠ c → catLookup r c' k = none := by
      intro c' _ hne
      unfold catLookup
      rcases hsc : alookup r.shards c' with _ | sh'
      · rfl
      · have hz : alookup sh' k = none := hnodangle (c', sh') (alookup_mem hsc) hne
        show (match alookup sh' k with
          | none => (none : Option PRec)
          | some m => merge_with_defaults r.defaults m) = none
        rw [hz]
    rw [hlk, lastLookup_of_unique r (dkeys r.indexCats) c k hcmem hidxN hothers, hcat]
    rfl

/-- Witness for C3 amended: a drift-free two-category repository where
the single-read and bulk-read records for k agree. -/
theorem C3_single_bulk_consistency_witness :
    ∃ mrec,
      get_string_metadata
        ⟨[("a", ["k"]), ("b", ["j"])],
         [("a", [("k", [("purpose", FVal.prim "p1")])]),
          ("b", [("j", [("purpose", FVal.prim "p2")])])], []⟩ "k" =
        Except.ok (some mrec) ∧
      alookup [("k", [("purpose", FVal.prim "p1")]),
        ("j", [("purpose", FVal.prim "p2")])] "k" = some mrec := by
  have h := C3_single_bulk_consistency
    ⟨[("a", ["k"]), ("b", ["j"])],
     [("a", [("k", [("purpose", FVal.prim "p1")])]),
      ("b", [("j", [("purpose", FVal.prim "p2")])])], []⟩
    "k" "a" ["k"]
    [("k", [("purpose", FVal.prim "p1")]), ("j", [("purpose", FVal.prim "p2")])]
    (by decide) (by decide) (by decide) (by decide) (by decide)
    [("k", [("purpose", FVal.prim "p1")])] (by decide) (by decide) (by decide)
    rfl
  exact h

/-- C5 counterexample: with the same key in two categories' shards,
get_all_metadata emits no warning whatsoever (its logged warning list is
empty) and silently overwrites the earlier category's record with the
later one. -/
theorem C5_counterexample :
    get_all_metadata_logged rC5 =
      (Except.ok [("k", [("purpose", FVal.prim "p2")])], []) ∧
    alookup rC5.shards "a" = some [("k", [("purpose", FVal.prim "p1")])] ∧
    alookup rC5.shards "b" = some [("k", [("purpose", FVal.prim "p2")])] ∧
    ([("purpose", FVal.prim "p1")] : PRec) ≠ [("purpose", FVal.prim "p2")] :=
  ⟨rfl, by decide, by decide, by decide⟩

/-- C5 amended: get_all_metadata does produce one entry per key (its
result is a dict with duplicate-free keys), but a key appearing in
several categories' shards silently resolves to the record contributed by
the latest such category in index order, and no warning-level anomaly is
emitted (the logged warning list is always empty). -/
theorem C5_duplicate_keys (r : Repo) (all : Dict PRec) (k : String)
    (hshN : ∀ e ∈ r.shards, (dkeys e.2).Nodup)
    (hall : get_all_metadata r = Except.ok all) :
    (dkeys all).Nodup ∧
    alookup all k = lastLookup r (dkeys r.indexCats) k ∧
    (get_all_metadata_logged r).2 = [] := by
  refine ⟨get_all_go_nodup r (dkeys r.indexCats) [] all List.nodup_nil hall, ?_, rfl⟩
  rw [get_all_go_ok_lookup r (dkeys r.indexCats) [] all
    (fun c' sh h => hshN (c', sh) (alookup_mem h)) hall k,
    show alookup ([] : Dict PRec) k = none from rfl, optOr_none_right]

/-- Witness for C5 amended, at the duplicate-key state rC5: one entry for
k, holding the later category's record, with no warning logged. -/
theorem C5_duplicate_keys_witness :
    (dkeys [("k", ([("purpose", FVal.prim "p2")] : PRec))]).Nodup ∧
    alookup [("k", [("purpose", FVal.prim "p2")])] "k" =
      lastLookup rC5 (dkeys rC5.indexCats) "k" ∧
    (get_all_metadata_logged rC5).2 = [] :=
  C5_duplicate_keys rC5 [("k", [("purpose", FVal.prim "p2")])] "k" (by decide) rfl

/-- C1: resume idempotence. A key that is complete in every target
locale's persisted output store is never dispatched by a session run
without force and without a specific key; when every documented key is
complete the session dispatches nothing at all, leaves the output stores
untouched, and therefore a second identical run also dispatches nothing. -/
theorem C1_resume_idempotence (s : Session) (srv : String → StepResult)
    (stores : Dict (Dict String)) (k : String) :
    (isComplete stores s.targets k = true → k ∉ sessionDispatches s stores) ∧
    ((∀ k' ∈ s.metadataKeys, isComplete stores s.targets k' = true) →
      sessionDispatches s stores = [] ∧
      sessionRun s srv stores = stores ∧
      sessionDispatches s (sessionRun s srv stores) = []) := by
  constructor
  · intro hc hm
    rcases List.mem_filter.1 hm with ⟨h1, _⟩
    rcases List.mem_filter.1 h1 with ⟨_, h2⟩
    rw [hc] at h2
    simp at h2
  · intro hall
    have hktt : keysToTranslate s stores = [] := keysToTranslate_nil s stores hall
    have hdisp : sessionDispatches s stores = [] := by
      unfold sessionDispatches
      rw [hktt]
      rfl
    have hrun : sessionRun s srv stores = stores := by
      show save_translations stores (translateLoop s srv (keysToTranslate s stores)).1 =
        stores
      rw [hktt]
      rfl
    exact ⟨hdisp, hrun, by rw [hrun]; exact hdisp⟩

/-- Witness for C1: one documented key, complete in both target locales;
the session dispatches nothing, twice. -/
theorem C1_resume_idempotence_witness :
    isComplete [("en", [("app_name", "x")]), ("fr", [("app_name", "y")])]
      ["en", "fr"] "app_name" = true ∧
    "app_name" ∉ sessionDispatches ⟨["app_name"], [("app_name", "DiveSMS")], ["en", "fr"]⟩
      [("en", [("app_name", "x")]), ("fr", [("app_name", "y")])] ∧
    sessionDispatches ⟨["app_name"], [("app_name", "DiveSMS")], ["en", "fr"]⟩
      [("en", [("app_name", "x")]), ("fr", [("app_name", "y")])] = [] ∧
    sessionRun ⟨["app_name"], [("app_name", "DiveSMS")], ["en", "fr"]⟩
      (fun _ => StepResult.err)
      [("en", [("app_name", "x")]), ("fr", [("app_name", "y")])] =
      [("en", [("app_name", "x")]), ("fr", [("app_name", "y")])] ∧
    sessionDispatches ⟨["app_name"], [("app_name", "DiveSMS")], ["en", "fr"]⟩
      (sessionRun ⟨["app_name"], [("app_name", "DiveSMS")], ["en", "fr"]⟩
        (fun _ => StepResult.err)
        [("en", [("app_name", "x")]), ("fr", [("app_name", "y")])]) = [] := by
  have h := C1_resume_idempotence ⟨["app_name"], [("app_name", "DiveSMS")], ["en", "fr"]⟩
    (fun _ => StepResult.err)
    [("en", [("app_name", "x")]), ("fr", [("app_name", "y")])] "app_name"
  obtain ⟨hd, hr, hd2⟩ := h.2 (by decide)
  exact ⟨by decide, h.1 (by decide), hd, hr, hd2⟩

/-- C9: lenient per-key failure semantics for a plain session. A key in
scope whose source text is missing or empty yields no translations and is
recorded in the failure list without raising; a key whose dispatch raises
is recorded in the failure list; a key whose dispatch succeeds with a
non-empty response is collected even when other keys fail; and the
failure list holds exactly the in-scope keys whose per-key result came
back empty. -/
theorem C9_lenient_failures (s : Session) (srv : String → StepResult)
    (stores : Dict (Dict String)) (k t : String) (tr : Dict String)
    (hk : k ∈ keysToTranslate s stores) :
    ((alookup s.strings k = none ∨ alookup s.strings k = some "") →
      translate_string s srv k = [] ∧
      k ∈ (translate_all s srv stores).2.1 ∧
      alookup (translate_all s srv stores).1 k = none) ∧
    (srv k = StepResult.err → k ∈ (translate_all s srv stores).2.1) ∧
    (k ∈ s.metadataKeys → alookup s.strings k = some t → t ≠ "" →
      srv k = StepResult.ok tr → tr ≠ [] →
      alookup (translate_all s srv stores).1 k = some tr) ∧
    (k ∈ (translate_all s srv stores).2.1 ↔ translate_string s srv k = []) := by
  have hfail : ∀ k', k' ∈ (translate_all s srv stores).2.1 ↔
      k' ∈ keysToTranslate s stores ∧ translate_string s srv k' = [] := by
    intro k'
    exact translateLoop_failed_iff s srv (keysToTranslate s stores) k'
  have hlook : ∀ k', alookup (translate_all s srv stores).1 k' =
      if k' ∈ keysToTranslate s stores ∧ translate_string s srv k' ≠ []
      then some (translate_string s srv k') else none := by
    intro k'
    exact translateLoop_lookup s srv (keysToTranslate s stores) k'
  refine ⟨?_, ?_, ?_, ?_⟩
  · intro hsrc
    have hts : translate_string s srv k = [] := by
      unfold translate_string
      by_cases hmem : k ∈ s.metadataKeys
      · rcases hsrc with hn | he
        · rw [if_pos hmem, hn]
        · rw [if_pos hmem, he]
          simp
      · rw [if_neg hmem]
    refine ⟨hts, (hfail k).2 ⟨hk, hts⟩, ?_⟩
    rw [hlook k, if_neg ?_]
    rintro ⟨_, h2⟩
    exact h2 hts
  · intro herr
    have hts : translate_string s srv k = [] := by
      unfold translate_string
      by_cases hmem : k ∈ s.metadataKeys
      · rw [if_pos hmem]
        cases hsk : alookup s.strings k with
        | none => rfl
        | some t0 =>
          by_cases ht0 : t0 = ""
          · simp [ht0]
          · simp [ht0, herr]
      · rw [if_neg hmem]
    exact (hfail k).2 ⟨hk, hts⟩
  · intro hmem hsrc ht hsrv htr
    have hts : translate_string s srv k = tr := by
      unfold translate_string
      rw [if_pos hmem, hsrc]
      simp [ht, hsrv]
    rw [hlook k, if_pos ⟨hk, by rw [hts]; exact htr⟩, hts]
  · rw [hfail k]
    constructor
    · rintro ⟨_, h2⟩
      exact h2
    · intro h2
      exact ⟨hk, h2⟩

/-- Witness for C9 on the concrete session sC9 and service srvC9: key a
(empty source) is skipped into the failure list, key b (raising service,
missing source) is recorded as failed, key c is still translated. -/
theorem C9_lenient_failures_witness :
    "a" ∈ keysToTranslate sC9 [] ∧
    translate_string sC9 srvC9 "a" = [] ∧
    "a" ∈ (translate_all sC9 srvC9 []).2.1 ∧
    alookup (translate_all sC9 srvC9 []).1 "a" = none ∧
    "b" ∈ (translate_all sC9 srvC9 []).2.1 ∧
    alookup (translate_all sC9 srvC9 []).1 "c" = some [("en", "Bonjour")] := by
  have ha := C9_lenient_failures sC9 srvC9 [] "a" "" [] (by decide)
  have hb := C9_lenient_failures sC9 srvC9 [] "b" "" [] (by decide)
  have hc := C9_lenient_failures sC9 srvC9 [] "c" "Hello" [("en", "Bonjour")] (by decide)
  obtain ⟨h1, h2, h3⟩ := ha.1 (by right; decide)
  refine ⟨by decide, h1, h2, h3, hb.2.1 (by decide), ?_⟩
  exact hc.2.2.1 (by decide) (by decide) (by decide) (by decide) (by decide)

/-- C6 counterexample: the record of k is moved from category a to b and
save is called, yet a's shard file still contains the entry for k: save
only rewrites shards of categories present in the new working set, so the
emptied category a keeps its stale file on disk (while a disappears from
the index). -/
theorem C6_counterexample :
    alookup wC6 "k" = some ⟨"b", []⟩ ∧
    alookup (mgrSave stC6 wC6).files "a" = some [("k", ⟨"a", []⟩)] ∧
    alookup [("k", (⟨"a", []⟩ : SRec))] "k" = some ⟨"a", []⟩ ∧
    alookup (mgrSave stC6 wC6).indexCats "a" = none :=
  ⟨by decide, by decide, by decide, by decide⟩

/-- C6 amended: provided the source category a still owns some record of
the working set, save rewrites both shards so that k's entry leaves shard
a and appears in shard b, and the index key-sets follow; and for every
category of the rewritten index, the index key-set and the rewritten
shard contents carry exactly the same keys. Shard files of categories
that vanished from the working set are left untouched on disk. -/
theorem C6_category_move (st : MgrState) (w : Dict SRec) (k a b : String) (r : SRec)
    (hN : (dkeys w).Nodup) (hr : alookup w k = some r)
    (hbcat : effCategory r.category = b) (ha : a ∈ catsOf w) (hab : b ≠ a)
    (c k' : String) (ks : List String) (sh : Dict SRec)
    (hks : alookup (mgrSave st w).indexCats c = some ks)
    (hsh : alookup (mgrSave st w).files c = some sh) :
    alookup (mgrSave st w).files b = some (groupOf w b) ∧
    alookup (groupOf w b) k = some r ∧
    alookup (mgrSave st w).indexCats b = some (insSort (dkeys (groupOf w b))) ∧
    k ∈ insSort (dkeys (groupOf w b)) ∧
    alookup (mgrSave st w).files a = some (groupOf w a) ∧
    alookup (groupOf w a) k = none ∧
    alookup (mgrSave st w).indexCats a = some (insSort (dkeys (groupOf w a))) ∧
    k ∉ insSort (dkeys (groupOf w a)) ∧
    (k' ∈ ks ↔ k' ∈ dkeys sh) := by
  have hb : b ∈ catsOf w := hbcat ▸ mem_catsOf w k r hr
  have hgb : alookup (groupOf w b) k = some r := by
    rw [groupOf_lookup w b k hN, hr]
    show (if effCategory r.category = b then some r else none) = some r
    rw [if_pos hbcat]
  have hga : alookup (groupOf w a) k = none := by
    rw [groupOf_lookup w a k hN, hr]
    show (if effCategory r.category = a then some r else none) = none
    rw [if_neg (fun hc => hab (hbcat ▸ hc))]
  have hkb : k ∈ insSort (dkeys (groupOf w b)) := by
    rw [mem_insSort, mem_dkeys_iff_alookup, hgb]
    simp
  have hka : k ∉ insSort (dkeys (groupOf w a)) := by
    rw [mem_insSort, mem_dkeys_iff_alookup, hga]
    simp
  refine ⟨?_, hgb, ?_, hkb, ?_, hga, ?_, hka, ?_⟩
  · rw [mgrSave_files_lookup, if_pos hb]
  · rw [mgrSave_index_lookup, if_pos hb]
  · rw [mgrSave_files_lookup, if_pos ha]
  · rw [mgrSave_index_lookup, if_pos ha]
  · rw [mgrSave_index_lookup] at hks
    by_cases hc : c ∈ catsOf w
    · rw [if_pos hc] at hks
      rw [mgrSave_files_lookup, if_pos hc] at hsh
      have h1 : ks = insSort (dkeys (groupOf w c)) := (Option.some.inj hks).symm
      have h2 : sh = groupOf w c := (Option.some.inj hsh).symm
      rw [h1, h2, mem_insSort]
    · rw [if_neg hc] at hks
      exact absurd hks (by simp)

/-- Witness for C6 amended: k2 moves from a to b while k1 keeps a alive;
after save, shard a holds exactly k1 and shard b exactly k2, in files and
index alike. -/
theorem C6_category_move_witness :
    alookup (mgrSave ⟨[("a", [("k1", ⟨"a", []⟩), ("k2", ⟨"a", []⟩)])],
        [("a", ["k1", "k2"])]⟩
      [("k1", ⟨"a", []⟩), ("k2", ⟨"b", []⟩)]).files "b" =
      some (groupOf [("k1", ⟨"a", []⟩), ("k2", ⟨"b", []⟩)] "b") ∧
    alookup (groupOf [("k1", ⟨"a", []⟩), ("k2", ⟨"b", []⟩)] "b") "k2" =
      some ⟨"b", []⟩ ∧
    "k2" ∈ insSort (dkeys (groupOf [("k1", ⟨"a", []⟩), ("k2", ⟨"b", []⟩)] "b")) ∧
    alookup (groupOf [("k1", ⟨"a", []⟩), ("k2", ⟨"b", []⟩)] "a") "k2" = none ∧
    "k2" ∉ insSort (dkeys (groupOf [("k1", ⟨"a", []⟩), ("k2", ⟨"b", []⟩)] "a")) ∧
    ("k2" ∈ ["k2"] ↔ "k2" ∈ dkeys (groupOf [("k1", ⟨"a", []⟩), ("k2", ⟨"b", []⟩)] "b")) := by
  have h := C6_category_move
    ⟨[("a", [("k1", ⟨"a", []⟩), ("k2", ⟨"a", []⟩)])], [("a", ["k1", "k2"])]⟩
    [("k1", ⟨"a", []⟩), ("k2", ⟨"b", []⟩)] "k2" "a" "b" ⟨"b", []⟩
    (by decide) (by decide) (by decide) (by decide) (by decide)
    "b" "k2" ["k2"] (groupOf [("k1", ⟨"a", []⟩), ("k2", ⟨"b", []⟩)] "b")
    (by decide) (by decide)
  exact ⟨h.1, h.2.1, h.2.2.2.1, h.2.2.2.2.2.1, h.2.2.2.2.2.2.2.1, h.2.2.2.2.2.2.2.2⟩

/-- C7 amended: the written element carries the formatted equal false
attribute whenever its value holds a custom percent-delimited placeholder
or at least two simple format specifiers (a percent sign directly
followed by a conversion character: the auto-detection regex does not
count positional forms such as percent-1-dollar-d), and whenever the
documented metadata flags format specifiers for the key. -/
theorem C7_nonstandard_flag (metaFS : Dict Bool) (existing : Dict String) (e : XmlEntry)
    (he : e ∈ buildEntries metaFS existing) :
    ((hasCustom e.text.data = true ∨ countSpecs e.text.data ≥ 2) →
      e.formattedFalse = true) ∧
    (formatSpecFlag metaFS e.name = true → e.formattedFalse = true) := by
  rcases List.mem_map.1 he with ⟨k, _, heq⟩
  subst heq
  constructor
  · intro hc
    show xmlFormattedFalse metaFS k ((alookup existing k).getD "") = true
    unfold xmlFormattedFalse
    rcases hc with h | h
    · rw [show hasCustom ((alookup existing k).getD "").data = true from h]
      simp
    · rw [show (decide (countSpecs ((alookup existing k).getD "").data ≥ 2)) = true
        from decide_eq_true h]
      simp
  · intro hf
    show xmlFormattedFalse metaFS k ((alookup existing k).getD "") = true
    unfold xmlFormattedFalse
    rw [show formatSpecFlag metaFS k = true from hf]
    simp

/-- C7 counterexample: a value containing the two standard positional
format specifiers percent-1-dollar-d and percent-2-dollar-d, for a key
without documented metadata, is written without the formatted equal false
attribute: the auto-detection counts only non-positional specifiers. -/
theorem C7_counterexample :
    buildEntries [] [("sent_progress", "Sent %1$d of %2$d")] =
      [⟨"sent_progress", "Sent %1$d of %2$d", false⟩] ∧
    containsSub "%1$d".data "Sent %1$d of %2$d".data = true ∧
    containsSub "%2$d".data "Sent %1$d of %2$d".data = true := by
  refine ⟨by decide, by decide, by decide⟩

/-- Witness for C7 amended on a value with a custom placeholder. -/
theorem C7_nonstandard_flag_witness :
    (⟨"x", "%count% items", true⟩ : XmlEntry) ∈ buildEntries [] [("x", "%count% items")] ∧
    hasCustom "%count% items".data = true ∧
    (⟨"x", "%count% items", true⟩ : XmlEntry).formattedFalse = true := by
  have h := C7_nonstandard_flag [] [("x", "%count% items")] ⟨"x", "%count% items", true⟩
    (by decide)
  exact ⟨by decide, by decide, h.1 (Or.inl (by decide))⟩

/-- C8: dry-run contract of the cleanup command. The command is dry-run
exactly when the explicit execute flag is absent; dry-run mode modifies
neither shards nor index; both modes compute the identical orphan preview
before diverging; and execute mode removes from each orphaned category's
shard and index key-set exactly the keys of that preview, leaving every
category without orphans untouched. -/
theorem C8_dry_run_contract (argv : List String) (fs : CleanupFS)
    (xmlKeys : List String) (c c' : String) (oks ks : List String)
    (sh : Dict PRec) (k : String)
    (hidxN : (dkeys fs.indexCats).Nodup)
    (hmem : (c, oks) ∈ find_orphaned_metadata fs.indexCats xmlKeys)
    (hsh : alookup fs.shards c = some sh)
    (hks : alookup fs.indexCats c = some ks)
    (hc' : c' ∉ dkeys (find_orphaned_metadata fs.indexCats xmlKeys)) :
    (cleanup_dry_run argv = true ↔ "--execute" ∉ argv) ∧
    (cleanup_main false fs xmlKeys).1 = fs ∧
    (cleanup_main false fs xmlKeys).2 = (cleanup_main true fs xmlKeys).2 ∧
    alookup (cleanup_main true fs xmlKeys).1.shards c =
      some (sh.filter (fun kv => kv.1 ∉ oks)) ∧
    alookup (sh.filter (fun kv => kv.1 ∉ oks)) k =
      (if k ∈ oks then none else alookup sh k) ∧
    alookup (cleanup_main true fs xmlKeys).1.indexCats c =
      (if (ks.filter (fun k2 => k2 ∉ oks)).isEmpty then none
       else some (ks.filter (fun k2 => k2 ∉ oks))) ∧
    alookup (cleanup_main true fs xmlKeys).1.shards c' = alookup fs.shards c' ∧
    alookup (cleanup_main true fs xmlKeys).1.indexCats c' = alookup fs.indexCats c' := by
  have hoN : (dkeys (find_orphaned_metadata fs.indexCats xmlKeys)).Nodup :=
    List.Nodup.sublist (dkeys_find_orphaned_sublist fs.indexCats xmlKeys) hidxN
  refine ⟨?_, rfl, rfl, ?_, ?_, ?_, ?_, ?_⟩
  · unfold cleanup_dry_run
    by_cases h : "--execute" ∈ argv <;> simp [h]
  · exact removeOrphanShards_mem (find_orphaned_metadata fs.indexCats xmlKeys)
      fs.shards c oks hoN hmem sh hsh
  · by_cases hko : k ∈ oks
    · rw [if_pos hko]
      exact alookup_filter_of_false sh _ k (fun v => by simp [hko])
    · rw [if_neg hko]
      exact alookup_filter_of_true sh _ k (fun v => by simp [hko])
  · exact removeOrphanIndex_mem (find_orphaned_metadata fs.indexCats xmlKeys)
      fs.indexCats c oks hoN hmem ks hks
  · exact removeOrphanShards_not_mem (find_orphaned_metadata fs.indexCats xmlKeys)
      fs.shards c' hc'
  · exact removeOrphanIndex_not_mem (find_orphaned_metadata fs.indexCats xmlKeys)
      fs.indexCats c' hc'

/-- Witness for C8 on the concrete state fsC8 with only k2 alive: no
flag means dry-run; dry-run changes nothing and previews the same set;
execute removes exactly the orphan k1 from shard and index. -/
theorem C8_dry_run_contract_witness :
    cleanup_dry_run [] = true ∧
    (cleanup_main false fsC8 ["k2"]).1 = fsC8 ∧
    (cleanup_main false fsC8 ["k2"]).2 = (cleanup_main true fsC8 ["k2"]).2 ∧
    alookup (cleanup_main true fsC8 ["k2"]).1.shards "a" =
      some [("k2", [("purpose", FVal.prim "p2")])] ∧
    alookup (cleanup_main true fsC8 ["k2"]).1.indexCats "a" = some ["k2"] := by
  have h := C8_dry_run_contract [] fsC8 ["k2"] "a" "zz" ["k1"] ["k1", "k2"]
    [("k1", [("purpose", FVal.prim "p1")]), ("k2", [("purpose", FVal.prim "p2")])] "k1"
    (by decide) (by decide) (by decide) (by decide) (by decide)
  refine ⟨h.1.2 (by decide), h.2.1, h.2.2.1, ?_, ?_⟩
  · rw [h.2.2.2.1]
    decide
  · rw [h.2.2.2.2.2.1]
    decide

end DiveSMS
